import Mathlib

/-!
Shallow embedding of `src/Q3/call_analysis_viz.py` (class `CallAnalyzer`).

Times are modelled by `ℚ` (the Python code manipulates JSON numbers with
comparisons, `max`, `min`, subtraction, sums and division only, so the
interval logic is exact over the rationals).

Modelling notes, justified line by line against the source:

* `CallAnalyzer.__init__` stores the raw conversation data and builds
  `timeline_data` (a pandas `DataFrame`) via `_create_timeline`.  A
  `DataFrame` built from a non-empty list of row-dicts is modelled by the
  `List Row` of its rows; a `DataFrame` built from the empty list has *no
  columns at all*, so any later `sort_values("start_time")` on it raises
  `KeyError: 'start_time'`.  We model that pandas failure mode with
  `PdError.keyError` in an `Except` result.

* `df.sort_values("start_time")` sorts rows by the `start_time` column.
  pandas' default sort kind is quicksort, whose ordering of rows with equal
  `start_time` is implementation-defined (quicksort is not stable).  We model
  it with `List.insertionSort` on `start_time`; every theorem below about
  `detect_overlaps`/`detect_silences`/`calculate_metrics` is insensitive to
  the order chosen among equal keys, except the stability question itself,
  which is deliberately left open.

* `speech_intervals.sort()` in `detect_silences` is Python's list sort on
  pairs, i.e. lexicographic on `(start, end)`; two pairs comparing equal are
  identical, so the sorted list is fully determined by the multiset of pairs.

* The Python loop that merges intervals mutates `merged_intervals[-1]`.
  `mergeAux cur l` carries that open last interval `cur` explicitly and emits
  it when the next interval does not merge; it performs exactly the source's
  `if start <= merged_intervals[-1][1]` test and
  `(merged[-1][0], max(merged[-1][1], end))` update.

* numpy scalar division by zero does not raise `ZeroDivisionError`: it
  produces `nan` (for `0/0`) or `inf`, values with no rational counterpart.
  `npDiv` returns `none` in that case and `some (x / d)` otherwise.
-/

abbrev Time := ℚ

/-- One record of the input conversation JSON: fields `speaker`, `text`,
`stime`, `etime`. -/
structure Segment where
  speaker : String
  text : String
  stime : Time
  etime : Time
deriving DecidableEq

/-- One row of the `timeline_data` DataFrame built by `_create_timeline`:
`duration` is computed as `etime - stime`. -/
structure Row where
  speaker : String
  text : String
  start_time : Time
  end_time : Time
  duration : Time
deriving DecidableEq

/-- One element of the list returned by `detect_overlaps`. -/
structure Overlap where
  start_time : Time
  end_time : Time
  duration : Time
  speakers : List String
deriving DecidableEq

/-- One element of the list returned by `detect_silences`. -/
structure Silence where
  start_time : Time
  end_time : Time
  duration : Time
deriving DecidableEq

/-- The pandas error raised when an operation names a column that the
DataFrame does not have (the case for any column on `pd.DataFrame([])`). -/
inductive PdError where
  | keyError (column : String)
deriving DecidableEq

/-- `_create_timeline`: one timeline row per conversation segment, in input
order, with `duration = etime - stime`. -/
def create_timeline (conversation_data : List Segment) : List Row :=
  conversation_data.map fun s =>
    { speaker := s.speaker
      text := s.text
      start_time := s.stime
      end_time := s.etime
      duration := s.etime - s.stime }

/-- The analyzer object: `__init__` stores the input and the timeline. -/
structure CallAnalyzer where
  conversation_data : List Segment
  timeline_data : List Row
deriving DecidableEq

/-- `CallAnalyzer.__init__`: no validation of any kind is performed; the
constructor always succeeds, whatever the input. -/
def CallAnalyzer.init (conversation_data : List Segment) : CallAnalyzer :=
  { conversation_data := conversation_data
    timeline_data := create_timeline conversation_data }

/-- Python's builtin `max` on two numbers (`max(a, b)`), written with an
explicit comparison so that concrete inputs evaluate by `decide`. -/
def pyMax (a b : Time) : Time := if a ≤ b then b else a

/-- Python's builtin `min` on two numbers (`min(a, b)`). -/
def pyMin (a b : Time) : Time := if a ≤ b then a else b

theorem pyMax_eq (a b : Time) : pyMax a b = max a b := by
  unfold pyMax
  rcases le_total a b with h | h
  · simp [h, max_eq_right h]
  · by_cases h2 : a ≤ b
    · simp [h2, max_eq_right h2]
    · simp [h2, max_eq_left h]

theorem pyMin_eq (a b : Time) : pyMin a b = min a b := by
  unfold pyMin
  rcases le_total a b with h | h
  · simp [h, min_eq_left h]
  · by_cases h2 : a ≤ b
    · simp [h2, min_eq_left h2]
    · simp [h2, min_eq_right h]

instance {e a : Type} [DecidableEq e] [DecidableEq a] : DecidableEq (Except e a) := fun x y =>
  match x, y with
  | .ok u, .ok v =>
    if h : u = v then .isTrue (by rw [h]) else .isFalse (by intro hh; cases hh; exact h rfl)
  | .ok _, .error _ => .isFalse (by intro hh; cases hh)
  | .error _, .ok _ => .isFalse (by intro hh; cases hh)
  | .error u, .error v =>
    if h : u = v then .isTrue (by rw [h]) else .isFalse (by intro hh; cases hh; exact h rfl)

/-- Row ordering used by `df.sort_values("start_time")`. -/
def RowLe (a b : Row) : Prop := a.start_time ≤ b.start_time

instance : DecidableRel RowLe := fun a b => inferInstanceAs (Decidable (a.start_time ≤ b.start_time))

instance : IsTotal Row RowLe := ⟨fun a b => le_total a.start_time b.start_time⟩

instance : IsTrans Row RowLe := ⟨fun _ _ _ h h' => le_trans h h'⟩

/-- `df.sort_values("start_time")` on a DataFrame that has the column. -/
def sortByStart (rows : List Row) : List Row :=
  List.insertionSort RowLe rows

/-- Lexicographic order on `(start, end)` pairs: Python's tuple comparison,
used by `speech_intervals.sort()`. -/
def LexLe (a b : Time × Time) : Prop :=
  a.1 < b.1 ∨ (a.1 = b.1 ∧ a.2 ≤ b.2)

instance : DecidableRel LexLe := fun a b =>
  inferInstanceAs (Decidable (a.1 < b.1 ∨ (a.1 = b.1 ∧ a.2 ≤ b.2)))

instance : IsTotal (Time × Time) LexLe := by
  constructor
  intro a b
  rcases lt_trichotomy a.1 b.1 with h | h | h
  · exact Or.inl (Or.inl h)
  · rcases le_total a.2 b.2 with h2 | h2
    · exact Or.inl (Or.inr ⟨h, h2⟩)
    · exact Or.inr (Or.inr ⟨h.symm, h2⟩)
  · exact Or.inr (Or.inl h)

instance : IsTrans (Time × Time) LexLe := by
  constructor
  intro a b c hab hbc
  rcases hab with h | ⟨h, h2⟩
  · rcases hbc with h' | ⟨h', _⟩
    · exact Or.inl (lt_trans h h')
    · exact Or.inl (h' ▸ h)
  · rcases hbc with h' | ⟨h', h2'⟩
    · exact Or.inl (h ▸ h')
    · exact Or.inr ⟨h.trans h', le_trans h2 h2'⟩

/-- `speech_intervals.sort()`. -/
def sortLex (l : List (Time × Time)) : List (Time × Time) :=
  List.insertionSort LexLe l

/-- Minimum of a pandas Series holding the given values (`Series.min`);
only ever used on non-empty columns. -/
def listMin : List Time → Time
  | [] => 0
  | x :: xs => xs.foldl pyMin x

/-- Maximum of a pandas Series holding the given values (`Series.max`);
only ever used on non-empty columns. -/
def listMax : List Time → Time
  | [] => 0
  | x :: xs => xs.foldl pyMax x

/-- The body of the loop in `detect_overlaps` for one consecutive pair
`(current, next_segment)` of the start-sorted timeline. -/
def overlapOfPair (current next_segment : Row) : Option Overlap :=
  if current.end_time > next_segment.start_time then
    let overlap_start := pyMax current.start_time next_segment.start_time
    let overlap_end := pyMin current.end_time next_segment.end_time
    let overlap_duration := overlap_end - overlap_start
    if overlap_duration > 0 then
      some { start_time := overlap_start
             end_time := overlap_end
             duration := overlap_duration
             speakers := [current.speaker, next_segment.speaker] }
    else none
  else none

/-- The loop `for i in range(len(df) - 1)` of `detect_overlaps`: each
iteration looks at rows `i` and `i + 1` of the sorted DataFrame. -/
def scanPairs : List Row → List Overlap
  | [] => []
  | [_] => []
  | current :: next_segment :: rest =>
    (overlapOfPair current next_segment).toList ++ scanPairs (next_segment :: rest)

/-- `CallAnalyzer.detect_overlaps`.  On an analyzer built from an empty
conversation, `sort_values("start_time")` raises `KeyError` because the
empty DataFrame has no columns. -/
def CallAnalyzer.detect_overlaps (an : CallAnalyzer) : Except PdError (List Overlap) :=
  if an.timeline_data.isEmpty then .error (.keyError "start_time")
  else .ok (scanPairs (sortByStart an.timeline_data))

/-- The interval-merging loop of `detect_silences`, with the mutable
`merged_intervals[-1]` carried as the explicit argument `cur`. -/
def mergeAux (cur : Time × Time) : List (Time × Time) → List (Time × Time)
  | [] => [cur]
  | (s, e) :: rest =>
    if s ≤ cur.2 then mergeAux (cur.1, pyMax cur.2 e) rest
    else cur :: mergeAux (s, e) rest

/-- `merged_intervals` as computed by the loop in `detect_silences`. -/
def mergeIntervals : List (Time × Time) → List (Time × Time)
  | [] => []
  | x :: xs => mergeAux x xs

/-- The `# Check for silence before first speech` block. -/
def beforeGap (call_start : Time) : List (Time × Time) → List Silence
  | [] => []
  | (s, _) :: _ =>
    if s > call_start then
      [{ start_time := call_start, end_time := s, duration := s - call_start }]
    else []

/-- The `# Check for silences between speech intervals` loop: pairs of
consecutive merged intervals. -/
def betweenGaps (merged : List (Time × Time)) : List Silence :=
  (merged.zip merged.tail).filterMap fun p =>
    if p.2.1 > p.1.2 then
      some { start_time := p.1.2, end_time := p.2.1, duration := p.2.1 - p.1.2 }
    else none

/-- The `# Check for silence after last speech` block. -/
def afterGap (call_end : Time) (merged : List (Time × Time)) : List Silence :=
  match merged.getLast? with
  | none => []
  | some (_, e) =>
    if e < call_end then
      [{ start_time := e, end_time := call_end, duration := call_end - e }]
    else []

/-- The speech-interval list built in `detect_silences` from the sorted
DataFrame rows. -/
def speechIntervalsOf (df : List Row) : List (Time × Time) :=
  df.map fun r => (r.start_time, r.end_time)

/-- The `merged_intervals` list that `detect_silences` computes from the
sorted DataFrame `df`: the speech intervals, sorted again by Python's tuple
order, then merged. -/
def mergedOf (df : List Row) : List (Time × Time) :=
  mergeIntervals (sortLex (speechIntervalsOf df))

/-- Body of `detect_silences` once the sorted DataFrame `df` exists. -/
def silencesCore (df : List Row) : List Silence :=
  let call_start := listMin (df.map Row.start_time)
  let call_end := listMax (df.map Row.end_time)
  let merged_intervals := mergedOf df
  beforeGap call_start merged_intervals ++ betweenGaps merged_intervals ++
    afterGap call_end merged_intervals

/-- `CallAnalyzer.detect_silences`; the empty-conversation case raises the
same pandas `KeyError` as `detect_overlaps`. -/
def CallAnalyzer.detect_silences (an : CallAnalyzer) : Except PdError (List Silence) :=
  if an.timeline_data.isEmpty then .error (.keyError "start_time")
  else .ok (silencesCore (sortByStart an.timeline_data))

/-- Division as numpy scalars perform it: dividing by zero yields `nan` or
`inf` (no exception), a value with no rational counterpart, modelled as
`none`. -/
def npDiv (x d : Time) : Option Time :=
  if d = 0 then none else some (x / d)

/-- The dict returned by `calculate_metrics`; percentage fields are `Option`
because numpy's zero division makes them `nan`. -/
structure Metrics where
  total_duration : Time
  total_overlap_time : Time
  total_silence_time : Time
  overlap_percentage : Option Time
  silence_percentage : Option Time
  agent_speaking_time : Time
  customer_speaking_time : Time
  agent_talk_percentage : Option Time
  customer_talk_percentage : Option Time
  overlaps : List Overlap
  silences : List Silence
  num_overlaps : Nat
  num_silences : Nat
deriving DecidableEq

/-- `CallAnalyzer.calculate_metrics`. -/
def CallAnalyzer.calculate_metrics (an : CallAnalyzer) : Except PdError Metrics := do
  let overlaps ← an.detect_overlaps
  let silences ← an.detect_silences
  let total_call_duration := listMax (an.timeline_data.map Row.end_time)
  let total_overlap_time := (overlaps.map Overlap.duration).sum
  let total_silence_time := (silences.map Silence.duration).sum
  let agent_time :=
    ((an.timeline_data.filter fun r => r.speaker == "Agent").map Row.duration).sum
  let customer_time :=
    ((an.timeline_data.filter fun r => r.speaker == "Customer").map Row.duration).sum
  return { total_duration := total_call_duration
           total_overlap_time := total_overlap_time
           total_silence_time := total_silence_time
           overlap_percentage := (npDiv total_overlap_time total_call_duration).map (· * 100)
           silence_percentage := (npDiv total_silence_time total_call_duration).map (· * 100)
           agent_speaking_time := agent_time
           customer_speaking_time := customer_time
           agent_talk_percentage := (npDiv agent_time total_call_duration).map (· * 100)
           customer_talk_percentage := (npDiv customer_time total_call_duration).map (· * 100)
           overlaps := overlaps
           silences := silences
           num_overlaps := overlaps.length
           num_silences := silences.length }

/-! ### Basic facts about the helper functions -/

theorem listMin_cons (x : Time) (xs : List Time) : listMin (x :: xs) = xs.foldl pyMin x := rfl

theorem listMax_cons (x : Time) (xs : List Time) : listMax (x :: xs) = xs.foldl pyMax x := rfl

theorem pyMin_le_left (a b : Time) : pyMin a b ≤ a := by
  rw [pyMin_eq]; exact min_le_left a b

theorem pyMin_le_right (a b : Time) : pyMin a b ≤ b := by
  rw [pyMin_eq]; exact min_le_right a b

theorem le_pyMax_left (a b : Time) : a ≤ pyMax a b := by
  rw [pyMax_eq]; exact le_max_left a b

theorem le_pyMax_right (a b : Time) : b ≤ pyMax a b := by
  rw [pyMax_eq]; exact le_max_right a b

theorem pyMin_choice (a b : Time) : pyMin a b = a ∨ pyMin a b = b := by
  unfold pyMin; split <;> simp

theorem pyMax_choice (a b : Time) : pyMax a b = a ∨ pyMax a b = b := by
  unfold pyMax; split <;> simp

theorem foldl_pyMin_le_init (xs : List Time) (a : Time) : xs.foldl pyMin a ≤ a := by
  induction xs generalizing a with
  | nil => exact le_refl a
  | cons y ys ih =>
    exact le_trans (ih (pyMin a y)) (pyMin_le_left a y)

theorem foldl_pyMin_le_mem (xs : List Time) (a : Time) {x : Time} (hx : x ∈ xs) :
    xs.foldl pyMin a ≤ x := by
  induction xs generalizing a with
  | nil => cases hx
  | cons y ys ih =>
    rcases List.mem_cons.mp hx with rfl | hx
    · exact le_trans (foldl_pyMin_le_init ys (pyMin a x)) (pyMin_le_right a x)
    · exact ih (pyMin a y) hx

theorem foldl_pyMin_mem (xs : List Time) (a : Time) :
    xs.foldl pyMin a = a ∨ xs.foldl pyMin a ∈ xs := by
  induction xs generalizing a with
  | nil => exact Or.inl rfl
  | cons y ys ih =>
    rcases ih (pyMin a y) with h | h
    · rcases pyMin_choice a y with h2 | h2
      · exact Or.inl (by rw [List.foldl_cons, h, h2])
      · exact Or.inr (by rw [List.foldl_cons, h, h2]; exact List.mem_cons_self y ys)
    · exact Or.inr (List.mem_cons_of_mem y h)

theorem le_foldl_pyMax_init (xs : List Time) (a : Time) : a ≤ xs.foldl pyMax a := by
  induction xs generalizing a with
  | nil => exact le_refl a
  | cons y ys ih =>
    exact le_trans (le_pyMax_left a y) (ih (pyMax a y))

theorem le_foldl_pyMax_mem (xs : List Time) (a : Time) {x : Time} (hx : x ∈ xs) :
    x ≤ xs.foldl pyMax a := by
  induction xs generalizing a with
  | nil => cases hx
  | cons y ys ih =>
    rcases List.mem_cons.mp hx with rfl | hx
    · exact le_trans (le_pyMax_right a x) (le_foldl_pyMax_init ys (pyMax a x))
    · exact ih (pyMax a y) hx

theorem foldl_pyMax_mem (xs : List Time) (a : Time) :
    xs.foldl pyMax a = a ∨ xs.foldl pyMax a ∈ xs := by
  induction xs generalizing a with
  | nil => exact Or.inl rfl
  | cons y ys ih =>
    rcases ih (pyMax a y) with h | h
    · rcases pyMax_choice a y with h2 | h2
      · exact Or.inl (by rw [List.foldl_cons, h, h2])
      · exact Or.inr (by rw [List.foldl_cons, h, h2]; exact List.mem_cons_self y ys)
    · exact Or.inr (List.mem_cons_of_mem y h)

theorem listMin_le {l : List Time} {x : Time} (hx : x ∈ l) : listMin l ≤ x := by
  cases l with
  | nil => cases hx
  | cons y ys =>
    rcases List.mem_cons.mp hx with rfl | hx
    · exact foldl_pyMin_le_init ys x
    · exact foldl_pyMin_le_mem ys y hx

theorem listMin_mem {l : List Time} (h : l ≠ []) : listMin l ∈ l := by
  cases l with
  | nil => exact absurd rfl h
  | cons y ys =>
    rcases foldl_pyMin_mem ys y with h2 | h2
    · rw [listMin_cons, h2]; exact List.mem_cons_self y ys
    · exact List.mem_cons_of_mem y h2

theorem le_listMax {l : List Time} {x : Time} (hx : x ∈ l) : x ≤ listMax l := by
  cases l with
  | nil => cases hx
  | cons y ys =>
    rcases List.mem_cons.mp hx with rfl | hx
    · exact le_foldl_pyMax_init ys x
    · exact le_foldl_pyMax_mem ys y hx

theorem listMax_mem {l : List Time} (h : l ≠ []) : listMax l ∈ l := by
  cases l with
  | nil => exact absurd rfl h
  | cons y ys =>
    rcases foldl_pyMax_mem ys y with h2 | h2
    · rw [listMax_cons, h2]; exact List.mem_cons_self y ys
    · exact List.mem_cons_of_mem y h2

theorem listMin_perm {l l' : List Time} (h : l.Perm l') : listMin l = listMin l' := by
  cases l with
  | nil => rw [h.nil_eq]
  | cons y ys =>
    have hne : (y :: ys) ≠ [] := by simp
    have hne' : l' ≠ [] := by
      intro h0; rw [h0] at h; exact hne h.eq_nil
    have h1 : listMin (y :: ys) ∈ l' := h.mem_iff.mp (listMin_mem hne)
    have h2 : listMin l' ∈ (y :: ys) := h.mem_iff.mpr (listMin_mem hne')
    exact le_antisymm (listMin_le h2) (listMin_le h1)

theorem listMax_perm {l l' : List Time} (h : l.Perm l') : listMax l = listMax l' := by
  cases l with
  | nil => rw [h.nil_eq]
  | cons y ys =>
    have hne : (y :: ys) ≠ [] := by simp
    have hne' : l' ≠ [] := by
      intro h0; rw [h0] at h; exact hne h.eq_nil
    have h1 : listMax (y :: ys) ∈ l' := h.mem_iff.mp (listMax_mem hne)
    have h2 : listMax l' ∈ (y :: ys) := h.mem_iff.mpr (listMax_mem hne')
    exact le_antisymm (le_listMax h1) (le_listMax h2)

/-- Every timeline row records `duration = end_time - start_time`. -/
theorem create_timeline_duration {data : List Segment} {r : Row}
    (hr : r ∈ create_timeline data) : r.duration = r.end_time - r.start_time := by
  unfold create_timeline at hr
  rcases List.mem_map.mp hr with ⟨s, _, rfl⟩
  rfl

theorem sortByStart_perm (rows : List Row) : (sortByStart rows).Perm rows :=
  List.perm_insertionSort RowLe rows

theorem sortByStart_sorted (rows : List Row) : List.Sorted RowLe (sortByStart rows) :=
  List.sorted_insertionSort RowLe rows

theorem sortLex_perm (l : List (Time × Time)) : (sortLex l).Perm l :=
  List.perm_insertionSort LexLe l

theorem sortLex_sorted (l : List (Time × Time)) : List.Sorted LexLe (sortLex l) :=
  List.sorted_insertionSort LexLe l

/-! ### detect_overlaps: spec-side description and structural lemmas -/

/-- The overlap-emission rule exactly as the specification words it (for the
refinement stated in claim C2): for a consecutive pair `(current, next)` of
the start-sorted order, if `current.end > next.start` there is a candidate
overlap over `[max(current.start, next.start), min(current.end, next.end)]`,
emitted only when its duration is strictly positive. -/
def overlapRuleSpec (p : Row × Row) : Option Overlap :=
  if p.1.end_time > p.2.start_time ∧
      0 < min p.1.end_time p.2.end_time - max p.1.start_time p.2.start_time then
    some { start_time := max p.1.start_time p.2.start_time
           end_time := min p.1.end_time p.2.end_time
           duration := min p.1.end_time p.2.end_time - max p.1.start_time p.2.start_time
           speakers := [p.1.speaker, p.2.speaker] }
  else none

/-- Claim C2's reading of the algorithm: sort by start, then emit along the
consecutive pairs of the sorted sequence. -/
def overlapsSpec (rows : List Row) : List Overlap :=
  ((sortByStart rows).zip (sortByStart rows).tail).filterMap overlapRuleSpec

theorem overlapOfPair_eq_rule (c n : Row) : overlapOfPair c n = overlapRuleSpec (c, n) := by
  unfold overlapOfPair overlapRuleSpec
  by_cases h1 : n.start_time < c.end_time
  · by_cases h2 : 0 < min c.end_time n.end_time - max c.start_time n.start_time
    · simp [h1, h2, pyMax_eq, pyMin_eq]
    · simp [h1, h2, pyMax_eq, pyMin_eq]
  · simp [h1, pyMax_eq, pyMin_eq]

theorem scanPairs_eq_filterMap (l : List Row) :
    scanPairs l = (l.zip l.tail).filterMap fun p => overlapOfPair p.1 p.2 := by
  induction l with
  | nil => rfl
  | cons a rest ih =>
    cases rest with
    | nil => rfl
    | cons b rs =>
      show (overlapOfPair a b).toList ++ scanPairs (b :: rs) = _
      rw [ih]
      cases h : overlapOfPair a b with
      | none => simp [List.filterMap_cons, h]
      | some o => simp [List.filterMap_cons, h]

theorem mem_scanPairs {l : List Row} {o : Overlap} :
    o ∈ scanPairs l ↔ ∃ p ∈ l.zip l.tail, overlapOfPair p.1 p.2 = some o := by
  rw [scanPairs_eq_filterMap]
  exact List.mem_filterMap

theorem overlapOfPair_eq_some {c n : Row} {o : Overlap} (h : overlapOfPair c n = some o) :
    n.start_time < c.end_time ∧
      0 < pyMin c.end_time n.end_time - pyMax c.start_time n.start_time ∧
      o = { start_time := pyMax c.start_time n.start_time
            end_time := pyMin c.end_time n.end_time
            duration := pyMin c.end_time n.end_time - pyMax c.start_time n.start_time
            speakers := [c.speaker, n.speaker] } := by
  unfold overlapOfPair at h
  by_cases h1 : n.start_time < c.end_time
  · by_cases h2 : 0 < pyMin c.end_time n.end_time - pyMax c.start_time n.start_time
    · refine ⟨h1, h2, ?_⟩
      simp only [gt_iff_lt, h1, if_true, h2] at h
      simp at h
      exact h.symm
    · simp only [gt_iff_lt, h1, if_true, h2] at h
      simp at h
  · simp only [gt_iff_lt, h1, if_false] at h
    simp at h

/-- Every overlap produced from a list whose head is `a` starts no earlier
than `a` does. -/
theorem scanPairs_start_lb {a : Row} {rest : List Row}
    (hs : List.Pairwise RowLe (a :: rest)) {o : Overlap} (ho : o ∈ scanPairs (a :: rest)) :
    a.start_time ≤ o.start_time := by
  induction rest generalizing a with
  | nil => cases ho
  | cons b rs ih =>
    rcases List.mem_append.mp ho with h | h
    · rcases Option.mem_toList.mp (by exact h) with he
      rcases overlapOfPair_eq_some he with ⟨_, _, rfl⟩
      exact le_pyMax_left a.start_time b.start_time
    · have hs' : List.Pairwise RowLe (b :: rs) := hs.tail
      have hab : RowLe a b := (List.pairwise_cons.mp hs).1 b (List.mem_cons_self b rs)
      exact le_trans hab (ih hs' h)

/-- On a start-sorted list, the emitted overlaps are ascending by
`start_time`. -/
theorem scanPairs_sorted {l : List Row} (hs : List.Pairwise RowLe l) :
    List.Pairwise (fun a b : Overlap => a.start_time ≤ b.start_time) (scanPairs l) := by
  induction l with
  | nil => exact List.Pairwise.nil
  | cons a rest ih =>
    cases rest with
    | nil => exact List.Pairwise.nil
    | cons b rs =>
      have hs' : List.Pairwise RowLe (b :: rs) := hs.tail
      have hab : RowLe a b := (List.pairwise_cons.mp hs).1 b (List.mem_cons_self b rs)
      show List.Pairwise _ ((overlapOfPair a b).toList ++ scanPairs (b :: rs))
      rw [List.pairwise_append]
      refine ⟨?_, ih hs', ?_⟩
      · cases h : overlapOfPair a b <;> simp
      · intro o1 h1 o2 h2
        rcases Option.mem_toList.mp (by exact h1) with he
        rcases overlapOfPair_eq_some he with ⟨_, _, rfl⟩
        have hb : b.start_time ≤ o2.start_time := scanPairs_start_lb hs' h2
        calc pyMax a.start_time b.start_time ≤ b.start_time := by
              rw [pyMax_eq]; exact max_le hab (le_refl _)
          _ ≤ o2.start_time := hb

theorem init_timeline (data : List Segment) :
    (CallAnalyzer.init data).timeline_data = create_timeline data := rfl

theorem detect_overlaps_ok {an : CallAnalyzer} {l : List Overlap} :
    an.detect_overlaps = .ok l ↔
      an.timeline_data ≠ [] ∧ l = scanPairs (sortByStart an.timeline_data) := by
  unfold CallAnalyzer.detect_overlaps
  by_cases he : an.timeline_data.isEmpty
  · simp [he, List.isEmpty_iff.mp he]
  · have hne : an.timeline_data ≠ [] := by simpa [List.isEmpty_iff] using he
    simp [he, hne, eq_comm]

theorem detect_silences_ok {an : CallAnalyzer} {l : List Silence} :
    an.detect_silences = .ok l ↔
      an.timeline_data ≠ [] ∧ l = silencesCore (sortByStart an.timeline_data) := by
  unfold CallAnalyzer.detect_silences
  by_cases he : an.timeline_data.isEmpty
  · simp [he, List.isEmpty_iff.mp he]
  · have hne : an.timeline_data ≠ [] := by simpa [List.isEmpty_iff] using he
    simp [he, hne, eq_comm]

/-- A concrete two-segment call with a genuine overlap (segments
`(Agent, 0, 6)` and `(Customer, 4, 10)`). -/
def exampleCall : List Segment :=
  [{ speaker := "Agent", text := "hello", stime := 0, etime := 6 },
   { speaker := "Customer", text := "hi", stime := 4, etime := 10 }]

/-- A concrete two-segment call with a silence gap (segments
`(Agent, 0, 3)` and `(Customer, 7, 10)`). -/
def exampleCallGap : List Segment :=
  [{ speaker := "Agent", text := "hello", stime := 0, etime := 3 },
   { speaker := "Customer", text := "hi", stime := 7, etime := 10 }]

/-- Claim C2: `detect_overlaps` sorts the segments by start and scans only
consecutive pairs of that sorted order, emitting, for each consecutive pair
`(current, next)` with `current.end > next.start`, the overlap
`[max(current.start, next.start), min(current.end, next.end)]`, and emitting
it only when its duration is strictly positive; the resulting sequence is
ordered ascending by `start_time`. -/
theorem c2_detect_overlaps_adjacent_scan (data : List Segment) (l : List Overlap)
    (h : (CallAnalyzer.init data).detect_overlaps = .ok l) :
    l = overlapsSpec (create_timeline data) ∧
      List.Pairwise (fun a b : Overlap => a.start_time ≤ b.start_time) l := by
  rcases detect_overlaps_ok.mp h with ⟨hne, rfl⟩
  constructor
  · rw [scanPairs_eq_filterMap]
    show _ = List.filterMap _ _
    apply List.filterMap_congr
    intro p _
    exact overlapOfPair_eq_rule p.1 p.2
  · exact scanPairs_sorted (sortByStart_sorted (create_timeline data))

/-- Witness for C2 on `exampleCall`. -/
theorem c2_witness :
    (CallAnalyzer.init exampleCall).detect_overlaps =
        .ok [{ start_time := 4, end_time := 6, duration := 2,
               speakers := ["Agent", "Customer"] }] ∧
      ([{ start_time := 4, end_time := 6, duration := 2,
          speakers := ["Agent", "Customer"] }] : List Overlap) =
          overlapsSpec (create_timeline exampleCall) ∧
      List.Pairwise (fun a b : Overlap => a.start_time ≤ b.start_time)
        [({ start_time := 4, end_time := 6, duration := 2,
            speakers := ["Agent", "Customer"] } : Overlap)] := by
  have h : (CallAnalyzer.init exampleCall).detect_overlaps =
      .ok [{ start_time := 4, end_time := 6, duration := 2,
             speakers := ["Agent", "Customer"] }] := by
    norm_num [CallAnalyzer.detect_overlaps, CallAnalyzer.init, create_timeline, exampleCall,
      sortByStart, List.insertionSort, List.orderedInsert, RowLe, scanPairs, overlapOfPair,
      pyMax, pyMin]
  exact ⟨h, (c2_detect_overlaps_adjacent_scan exampleCall _ h).1,
    (c2_detect_overlaps_adjacent_scan exampleCall _ h).2⟩

/-- Claim C7: no false overlaps.  Every overlap reported by
`detect_overlaps` is produced by a consecutive pair of the start-sorted
rows whose intervals strictly intersect; in particular no overlap is ever
reported between two segments with `end1 ≤ start2` (disjoint or touching),
in either role. -/
theorem c7_no_false_overlaps (data : List Segment) (l : List Overlap)
    (h : (CallAnalyzer.init data).detect_overlaps = .ok l) (o : Overlap) (ho : o ∈ l) :
    ∃ c n, (c, n) ∈ (sortByStart (create_timeline data)).zip
        (sortByStart (create_timeline data)).tail ∧
      overlapOfPair c n = some o ∧
      ¬ c.end_time ≤ n.start_time ∧ ¬ n.end_time ≤ c.start_time := by
  rcases detect_overlaps_ok.mp h with ⟨hne, rfl⟩
  rcases mem_scanPairs.mp ho with ⟨p, hp, he⟩
  rcases overlapOfPair_eq_some he with ⟨h1, h2, _⟩
  refine ⟨p.1, p.2, by simpa using hp, he, not_le.mpr h1, not_le.mpr ?_⟩
  have h3 : pyMax p.1.start_time p.2.start_time < pyMin p.1.end_time p.2.end_time := by
    linarith
  have h4 := le_pyMax_left p.1.start_time p.2.start_time
  have h5 := pyMin_le_right p.1.end_time p.2.end_time
  linarith

/-- Witness for C7 on `exampleCall`. -/
theorem c7_witness :
    (CallAnalyzer.init exampleCall).detect_overlaps =
        .ok [{ start_time := 4, end_time := 6, duration := 2,
               speakers := ["Agent", "Customer"] }] ∧
      ∃ c n, (c, n) ∈ (sortByStart (create_timeline exampleCall)).zip
          (sortByStart (create_timeline exampleCall)).tail ∧
        overlapOfPair c n = some { start_time := 4, end_time := 6, duration := 2,
                                   speakers := ["Agent", "Customer"] } ∧
        ¬ c.end_time ≤ n.start_time ∧ ¬ n.end_time ≤ c.start_time := by
  have h : (CallAnalyzer.init exampleCall).detect_overlaps =
      .ok [{ start_time := 4, end_time := 6, duration := 2,
             speakers := ["Agent", "Customer"] }] := by
    norm_num [CallAnalyzer.detect_overlaps, CallAnalyzer.init, create_timeline, exampleCall,
      sortByStart, List.insertionSort, List.orderedInsert, RowLe, scanPairs, overlapOfPair,
      pyMax, pyMin]
  exact ⟨h, c7_no_false_overlaps exampleCall _ h _ (List.mem_singleton.mpr rfl)⟩

/-- Claim C8: for a call whose segments all satisfy `end ≥ start`, every
reported overlap's duration is at most the duration of each of the two
segments that produced it. -/
theorem c8_overlap_duration_bound (data : List Segment)
    (hv : ∀ s ∈ data, s.stime ≤ s.etime) (l : List Overlap)
    (h : (CallAnalyzer.init data).detect_overlaps = .ok l) (o : Overlap) (ho : o ∈ l) :
    ∃ c n, (c, n) ∈ (sortByStart (create_timeline data)).zip
        (sortByStart (create_timeline data)).tail ∧
      overlapOfPair c n = some o ∧
      o.duration ≤ c.duration ∧ o.duration ≤ n.duration := by
  rcases detect_overlaps_ok.mp h with ⟨hne, rfl⟩
  rcases mem_scanPairs.mp ho with ⟨p, hp, he⟩
  rcases overlapOfPair_eq_some he with ⟨h1, h2, ho'⟩
  have hc : p.1 ∈ create_timeline data :=
    (sortByStart_perm (create_timeline data)).mem_iff.mp (List.mem_zip hp).1
  have hn : p.2 ∈ create_timeline data := by
    have h2' : p.2 ∈ (sortByStart (create_timeline data)).tail := (List.mem_zip hp).2
    exact (sortByStart_perm (create_timeline data)).mem_iff.mp
      (List.mem_of_mem_tail h2')
  refine ⟨p.1, p.2, by simpa using hp, he, ?_, ?_⟩
  · rw [create_timeline_duration hc, ho']
    have h4 := le_pyMax_left p.1.start_time p.2.start_time
    have h5 := pyMin_le_left p.1.end_time p.2.end_time
    show pyMin _ _ - pyMax _ _ ≤ _
    linarith
  · rw [create_timeline_duration hn, ho']
    have h4 := le_pyMax_right p.1.start_time p.2.start_time
    have h5 := pyMin_le_right p.1.end_time p.2.end_time
    show pyMin _ _ - pyMax _ _ ≤ _
    linarith

/-- Witness for C8 on `exampleCall`. -/
theorem c8_witness :
    (∀ s ∈ exampleCall, s.stime ≤ s.etime) ∧
      (CallAnalyzer.init exampleCall).detect_overlaps =
        .ok [{ start_time := 4, end_time := 6, duration := 2,
               speakers := ["Agent", "Customer"] }] ∧
      ∃ c n, (c, n) ∈ (sortByStart (create_timeline exampleCall)).zip
          (sortByStart (create_timeline exampleCall)).tail ∧
        overlapOfPair c n = some { start_time := 4, end_time := 6, duration := 2,
                                   speakers := ["Agent", "Customer"] } ∧
        (2 : Time) ≤ c.duration ∧ (2 : Time) ≤ n.duration := by
  have hv : ∀ s ∈ exampleCall, s.stime ≤ s.etime := by
    intro s hs
    rcases List.mem_cons.mp hs with rfl | hs
    · norm_num
    · rcases List.mem_cons.mp hs with rfl | hs
      · norm_num
      · cases hs
  have h : (CallAnalyzer.init exampleCall).detect_overlaps =
      .ok [{ start_time := 4, end_time := 6, duration := 2,
             speakers := ["Agent", "Customer"] }] := by
    norm_num [CallAnalyzer.detect_overlaps, CallAnalyzer.init, create_timeline, exampleCall,
      sortByStart, List.insertionSort, List.orderedInsert, RowLe, scanPairs, overlapOfPair,
      pyMax, pyMin]
  rcases c8_overlap_duration_bound exampleCall hv _ h _ (List.mem_singleton.mpr rfl) with
    ⟨c, n, hcn, heq, hb1, hb2⟩
  exact ⟨hv, h, c, n, hcn, heq, hb1, hb2⟩

/-! ### Structure of the merged intervals -/

theorem pyMax_of_le {a b : Time} (h : a ≤ b) : pyMax a b = b := by simp [pyMax, h]

theorem mergeAux_ne_nil (cur : Time × Time) (l : List (Time × Time)) : mergeAux cur l ≠ [] := by
  induction l generalizing cur with
  | nil => simp [mergeAux]
  | cons x xs ih =>
    rcases x with ⟨s, e⟩
    unfold mergeAux
    by_cases hsc : s ≤ cur.2
    · rw [if_pos hsc]; exact ih _
    · rw [if_neg hsc]; simp

theorem mergeAux_head {cur : Time × Time} {l : List (Time × Time)} {c : Time × Time}
    {rest : List (Time × Time)} (h : mergeAux cur l = c :: rest) :
    c.1 = cur.1 ∧ cur.2 ≤ c.2 := by
  induction l generalizing cur with
  | nil =>
    simp only [mergeAux] at h
    injection h with h1 h2
    subst h1
    exact ⟨rfl, le_refl _⟩
  | cons x xs ih =>
    rcases x with ⟨s, e⟩
    unfold mergeAux at h
    by_cases hsc : s ≤ cur.2
    · rw [if_pos hsc] at h
      rcases ih h with ⟨h1, h2⟩
      exact ⟨h1, le_trans (le_pyMax_left _ _) h2⟩
    · rw [if_neg hsc] at h
      injection h with h1 h2
      subst h1
      exact ⟨rfl, le_refl _⟩

theorem mergeAux_chain (cur : Time × Time) (l : List (Time × Time)) :
    List.Chain' (fun x y : Time × Time => x.2 < y.1) (mergeAux cur l) := by
  induction l generalizing cur with
  | nil => simp [mergeAux]
  | cons x xs ih =>
    rcases x with ⟨s, e⟩
    unfold mergeAux
    by_cases hsc : s ≤ cur.2
    · rw [if_pos hsc]; exact ih _
    · rw [if_neg hsc]
      rcases hM : mergeAux (s, e) xs with _ | ⟨c, rest⟩
      · exact absurd hM (mergeAux_ne_nil _ _)
      · refine List.chain'_cons.mpr ⟨?_, hM ▸ ih (s, e)⟩
        rw [(mergeAux_head hM).1]
        exact not_le.mp hsc

theorem mergeAux_within {cur : Time × Time} {l : List (Time × Time)}
    (hc : cur.1 ≤ cur.2) (hl : ∀ p ∈ l, p.1 ≤ p.2) :
    ∀ p ∈ mergeAux cur l, p.1 ≤ p.2 := by
  induction l generalizing cur with
  | nil =>
    intro p hp
    simp only [mergeAux, List.mem_singleton] at hp
    subst hp
    exact hc
  | cons x xs ih =>
    rcases x with ⟨s, e⟩
    intro p hp
    unfold mergeAux at hp
    by_cases hsc : s ≤ cur.2
    · rw [if_pos hsc] at hp
      refine ih ?_ (fun q hq => hl q (List.mem_cons_of_mem _ hq)) p hp
      exact le_trans hc (le_pyMax_left _ _)
    · rw [if_neg hsc] at hp
      rcases List.mem_cons.mp hp with rfl | hp
      · exact hc
      · exact ih (hl (s, e) (List.mem_cons_self _ _))
          (fun q hq => hl q (List.mem_cons_of_mem _ hq)) p hp

/-- The second component of the last merged interval. -/
def lastSnd (c : Time × Time) (rest : List (Time × Time)) : Time :=
  ((c :: rest).getLast (List.cons_ne_nil c rest)).2

theorem lastSnd_nil (c : Time × Time) : lastSnd c [] = c.2 := rfl

theorem lastSnd_cons (c q : Time × Time) (rs : List (Time × Time)) :
    lastSnd c (q :: rs) = lastSnd q rs := by
  unfold lastSnd
  rw [List.getLast_cons (List.cons_ne_nil q rs)]

theorem pairwise_fst_merge {cur : Time × Time} {s e : Time} {xs : List (Time × Time)}
    (hs : List.Pairwise (fun x y : Time × Time => x.1 ≤ y.1) (cur :: (s, e) :: xs)) (v : Time) :
    List.Pairwise (fun x y : Time × Time => x.1 ≤ y.1) ((cur.1, v) :: xs) := by
  rcases List.pairwise_cons.mp hs with ⟨h1, h2⟩
  refine List.pairwise_cons.mpr ⟨fun y hy => ?_, (List.pairwise_cons.mp h2).2⟩
  exact h1 y (List.mem_cons_of_mem _ hy)

theorem mergeAux_lastSnd {cur : Time × Time} {l : List (Time × Time)}
    (hs : List.Pairwise (fun x y : Time × Time => x.1 ≤ y.1) (cur :: l))
    (hc : cur.1 ≤ cur.2) (hl : ∀ p ∈ l, p.1 ≤ p.2) :
    ∀ {c : Time × Time} {rest : List (Time × Time)}, mergeAux cur l = c :: rest →
      lastSnd c rest = listMax ((cur :: l).map Prod.snd) := by
  induction l generalizing cur with
  | nil =>
    intro c rest h
    simp only [mergeAux] at h
    injection h with h1 h2
    subst h1
    subst h2
    simp [lastSnd_nil, listMax]
  | cons x xs ih =>
    rcases x with ⟨s, e⟩
    intro c rest h
    unfold mergeAux at h
    by_cases hsc : s ≤ cur.2
    · rw [if_pos hsc] at h
      have ih' := ih (pairwise_fst_merge hs (pyMax cur.2 e))
        (le_trans hc (le_pyMax_left _ _))
        (fun q hq => hl q (List.mem_cons_of_mem _ hq)) h
      rw [ih']
      simp [listMax_cons, List.foldl_cons]
    · rw [if_neg hsc] at h
      injection h with h1 h2
      subst h1
      have hse : s ≤ e := hl (s, e) (List.mem_cons_self _ _)
      rcases hM : mergeAux (s, e) xs with _ | ⟨m, ms⟩
      · exact absurd hM (mergeAux_ne_nil _ _)
      · have ih' := ih (List.pairwise_cons.mp hs).2 hse
          (fun q hq => hl q (List.mem_cons_of_mem _ hq)) hM
        rw [← h2, hM, lastSnd_cons, ih']
        have hce : cur.2 ≤ e := le_trans (le_of_lt (not_le.mp hsc)) hse
        simp [listMax_cons, List.foldl_cons, pyMax_of_le hce]

theorem mergeAux_covers {cur : Time × Time} {l : List (Time × Time)}
    (hs : List.Pairwise (fun x y : Time × Time => x.1 ≤ y.1) (cur :: l)) :
    ∀ p ∈ cur :: l, ∃ q ∈ mergeAux cur l, q.1 ≤ p.1 ∧ p.2 ≤ q.2 := by
  induction l generalizing cur with
  | nil =>
    intro p hp
    rw [List.mem_singleton] at hp
    subst hp
    exact ⟨p, by simp [mergeAux], le_refl _, le_refl _⟩
  | cons x xs ih =>
    rcases x with ⟨s, e⟩
    intro p hp
    by_cases hsc : s ≤ cur.2
    · have hmem : ∀ q, q ∈ mergeAux (cur.1, pyMax cur.2 e) xs → q ∈ mergeAux cur ((s, e) :: xs) := by
        intro q hq
        unfold mergeAux
        rw [if_pos hsc]
        exact hq
      have hs' := pairwise_fst_merge hs (pyMax cur.2 e)
      have hcs : cur.1 ≤ s :=
        (List.pairwise_cons.mp hs).1 (s, e) (List.mem_cons_self _ _)
      rcases ih hs' (cur.1, pyMax cur.2 e) (List.mem_cons_self _ _) with ⟨q, hq, hq1, hq2⟩
      rcases List.mem_cons.mp hp with rfl | hp
      · exact ⟨q, hmem q hq, hq1, le_trans (le_pyMax_left _ _) hq2⟩
      · rcases List.mem_cons.mp hp with rfl | hp
        · exact ⟨q, hmem q hq, le_trans hq1 hcs, le_trans (le_pyMax_right _ _) hq2⟩
        · rcases ih hs' p (List.mem_cons_of_mem _ hp) with ⟨q', hq', hq1', hq2'⟩
          exact ⟨q', hmem q' hq', hq1', hq2'⟩
    · have hmem : ∀ q, q ∈ cur :: mergeAux (s, e) xs → q ∈ mergeAux cur ((s, e) :: xs) := by
        intro q hq
        unfold mergeAux
        rw [if_neg hsc]
        exact hq
      rcases List.mem_cons.mp hp with rfl | hp
      · exact ⟨p, hmem p (List.mem_cons_self _ _), le_refl _, le_refl _⟩
      · rcases ih (List.pairwise_cons.mp hs).2 p hp with ⟨q, hq, hq1, hq2⟩
        exact ⟨q, hmem q (List.mem_cons_of_mem _ hq), hq1, hq2⟩

/-! ### Silence gaps between merged intervals -/

theorem mem_betweenGaps {l : List (Time × Time)} {g : Silence} :
    g ∈ betweenGaps l ↔ ∃ p ∈ l.zip l.tail, p.1.2 < p.2.1 ∧
      g = { start_time := p.1.2, end_time := p.2.1, duration := p.2.1 - p.1.2 } := by
  unfold betweenGaps
  rw [List.mem_filterMap]
  constructor
  · rintro ⟨p, hp, he⟩
    by_cases hc : p.1.2 < p.2.1
    · rw [if_pos hc] at he
      exact ⟨p, hp, hc, (Option.some.inj he).symm⟩
    · rw [if_neg hc] at he
      cases he
  · rintro ⟨p, hp, hc, rfl⟩
    exact ⟨p, hp, by rw [if_pos hc]⟩

theorem betweenGaps_cons_cons (c q : Time × Time) (rs : List (Time × Time)) :
    betweenGaps (c :: q :: rs) =
      (if c.2 < q.1 then
        [{ start_time := c.2, end_time := q.1, duration := q.1 - c.2 }] else []) ++
        betweenGaps (q :: rs) := by
  unfold betweenGaps
  simp only [List.tail_cons, List.zip_cons_cons, List.filterMap_cons]
  by_cases hc : c.2 < q.1
  · rw [if_pos hc, if_pos hc]
    simp
  · rw [if_neg hc, if_neg hc]
    simp

theorem chain_fst_lb {l : List (Time × Time)} {c : Time × Time}
    (hchain : List.Chain' (fun x y : Time × Time => x.2 < y.1) (c :: l))
    (hw : ∀ p ∈ c :: l, p.1 ≤ p.2) :
    ∀ x ∈ c :: l, c.1 ≤ x.1 := by
  induction l generalizing c with
  | nil =>
    intro x hx
    rw [List.mem_singleton] at hx
    subst hx
    exact le_refl _
  | cons q rs ih =>
    intro x hx
    rcases List.mem_cons.mp hx with rfl | hx
    · exact le_refl _
    · have h1 : c.2 < q.1 := (List.chain'_cons.mp hchain).1
      have h2 : c.1 ≤ c.2 := hw c (List.mem_cons_self _ _)
      have h3 := ih (List.chain'_cons.mp hchain).2
        (fun p hp => hw p (List.mem_cons_of_mem c hp)) x hx
      linarith

theorem gapStart_lb {l : List (Time × Time)} {c : Time × Time}
    (hchain : List.Chain' (fun x y : Time × Time => x.2 < y.1) (c :: l))
    (hw : ∀ p ∈ c :: l, p.1 ≤ p.2) :
    ∀ g ∈ betweenGaps (c :: l), c.1 ≤ g.start_time := by
  intro g hg
  rcases mem_betweenGaps.mp hg with ⟨p, hp, _, rfl⟩
  have hx : p.1 ∈ c :: l := (List.of_mem_zip hp).1
  have h1 := chain_fst_lb hchain hw p.1 hx
  have h2 : p.1.1 ≤ p.1.2 := hw p.1 hx
  exact le_trans h1 h2

theorem betweenGaps_sorted {l : List (Time × Time)} {c : Time × Time}
    (hchain : List.Chain' (fun x y : Time × Time => x.2 < y.1) (c :: l))
    (hw : ∀ p ∈ c :: l, p.1 ≤ p.2) :
    List.Pairwise (fun a b : Silence => a.start_time ≤ b.start_time) (betweenGaps (c :: l)) := by
  induction l generalizing c with
  | nil => simp [betweenGaps]
  | cons q rs ih =>
    have hcq : c.2 < q.1 := (List.chain'_cons.mp hchain).1
    have hchain' := (List.chain'_cons.mp hchain).2
    have hw' : ∀ p ∈ q :: rs, p.1 ≤ p.2 := fun p hp => hw p (List.mem_cons_of_mem c hp)
    rw [betweenGaps_cons_cons, if_pos hcq]
    rw [List.pairwise_append]
    refine ⟨by simp, ih hchain' hw', ?_⟩
    intro g1 hg1 g2 hg2
    rw [List.mem_singleton] at hg1
    subst hg1
    have := gapStart_lb hchain' hw' g2 hg2
    show c.2 ≤ g2.start_time
    linarith

theorem partitionAux (rest : List (Time × Time)) : ∀ (cur : Time × Time),
    List.Chain' (fun x y : Time × Time => x.2 < y.1) (cur :: rest) →
    (∀ p ∈ cur :: rest, p.1 ≤ p.2) →
    ∀ t : Time, cur.1 ≤ t → t < lastSnd cur rest →
    ((∃ p ∈ cur :: rest, p.1 ≤ t ∧ t < p.2) ↔
      ¬ ∃ q ∈ betweenGaps (cur :: rest), q.start_time ≤ t ∧ t < q.end_time) := by
  induction rest with
  | nil =>
    intro cur _ _ t h1 h2
    rw [lastSnd_nil] at h2
    constructor
    · rintro _ ⟨q, hq, _⟩
      simp [betweenGaps] at hq
    · intro _
      exact ⟨cur, List.mem_singleton.mpr rfl, h1, h2⟩
  | cons q rs ih =>
    intro cur hchain hw t h1 h2
    have hcq : cur.2 < q.1 := (List.chain'_cons.mp hchain).1
    have hchain' := (List.chain'_cons.mp hchain).2
    have hw' : ∀ p ∈ q :: rs, p.1 ≤ p.2 := fun p hp => hw p (List.mem_cons_of_mem cur hp)
    rw [betweenGaps_cons_cons, if_pos hcq]
    by_cases ht : t < cur.2
    · constructor
      · rintro _ ⟨g, hg, hg1, hg2⟩
        rcases List.mem_cons.mp hg with rfl | hg
        · exact absurd hg1 (not_le.mpr ht)
        · have := gapStart_lb hchain' hw' g hg
          linarith
      · intro _
        exact ⟨cur, List.mem_cons_self _ _, h1, ht⟩
    · push_neg at ht
      by_cases ht2 : t < q.1
      · constructor
        · rintro ⟨p, hp, hp1, hp2⟩ _
          rcases List.mem_cons.mp hp with rfl | hp
          · linarith
          · have := chain_fst_lb hchain' hw' p hp
            linarith
        · intro hno
          exact absurd ⟨⟨cur.2, q.1, q.1 - cur.2⟩,
            List.mem_cons_self _ _, ht, ht2⟩ hno
      · push_neg at ht2
        have h2' : t < lastSnd q rs := by rw [← lastSnd_cons cur]; exact h2
        have main := ih q hchain' hw' t ht2 h2'
        constructor
        · rintro ⟨p, hp, hp1, hp2⟩ ⟨g, hg, hg1, hg2⟩
          rcases List.mem_cons.mp hp with rfl | hp
          · linarith
          · rcases List.mem_cons.mp hg with rfl | hg
            · simp at hg2
              linarith
            · exact (main.mp ⟨p, hp, hp1, hp2⟩) ⟨g, hg, hg1, hg2⟩
        · intro hno
          have hno' : ¬ ∃ g ∈ betweenGaps (q :: rs), g.start_time ≤ t ∧ t < g.end_time := by
            rintro ⟨g, hg, hg1, hg2⟩
            exact hno ⟨g, List.mem_cons_of_mem _ hg, hg1, hg2⟩
          rcases main.mpr hno' with ⟨p, hp, hp1, hp2⟩
          exact ⟨p, List.mem_cons_of_mem _ hp, hp1, hp2⟩

/-! ### The specification's wording of the merge step (claim C3) -/

/-- One step of the merge as the specification describes it: an interval
coalesces into the running (last) merged interval exactly when its start is
at most the running interval's end; otherwise it opens a new merged
interval. -/
def mergeSpecStep (acc : List (Time × Time)) (i : Time × Time) : List (Time × Time) :=
  match acc.getLast? with
  | none => [i]
  | some last =>
    if i.1 ≤ last.2 then acc.dropLast ++ [(last.1, max last.2 i.2)] else acc ++ [i]

/-- The merged intervals as the specification describes them. -/
def mergeSpec (l : List (Time × Time)) : List (Time × Time) :=
  l.foldl mergeSpecStep []

theorem mergeAux_cons (cur : Time × Time) (s e : Time) (xs : List (Time × Time)) :
    mergeAux cur ((s, e) :: xs) =
      if s ≤ cur.2 then mergeAux (cur.1, pyMax cur.2 e) xs
      else cur :: mergeAux (s, e) xs := rfl

theorem mergeSpec_go (l : List (Time × Time)) :
    ∀ (acc : List (Time × Time)) (cur : Time × Time),
      List.foldl mergeSpecStep (acc ++ [cur]) l = acc ++ mergeAux cur l := by
  induction l with
  | nil =>
    intro acc cur
    simp [mergeAux]
  | cons x xs ih =>
    rcases x with ⟨s, e⟩
    intro acc cur
    rw [List.foldl_cons]
    have hstep : mergeSpecStep (acc ++ [cur]) (s, e) =
        if s ≤ cur.2 then acc ++ [(cur.1, max cur.2 e)] else (acc ++ [cur]) ++ [(s, e)] := by
      unfold mergeSpecStep
      rw [List.getLast?_concat]
      simp [List.dropLast_concat]
    rw [hstep]
    by_cases hsc : s ≤ cur.2
    · rw [if_pos hsc, ih acc (cur.1, max cur.2 e)]
      rw [mergeAux_cons, if_pos hsc, pyMax_eq]
    · rw [if_neg hsc, ih (acc ++ [cur]) (s, e)]
      rw [mergeAux_cons, if_neg hsc]
      simp

/-- The loop of `detect_silences` computes exactly the merged intervals the
specification describes. -/
theorem mergeSpec_eq (l : List (Time × Time)) : mergeSpec l = mergeIntervals l := by
  cases l with
  | nil => rfl
  | cons x xs =>
    show List.foldl mergeSpecStep (mergeSpecStep [] x) xs = mergeAux x xs
    have h0 : mergeSpecStep [] x = [] ++ [x] := by
      unfold mergeSpecStep
      simp
    rw [h0, mergeSpec_go]
    simp

/-- Claim C3's full description of `detect_silences`: sorted speech
intervals, coalesced per the merge rule, then the three kinds of gaps. -/
def silencesSpecOf (df : List Row) : List Silence :=
  let call_start := listMin (df.map Row.start_time)
  let call_end := listMax (df.map Row.end_time)
  let merged := mergeSpec (sortLex (speechIntervalsOf df))
  beforeGap call_start merged ++ betweenGaps merged ++ afterGap call_end merged

/-! ### Assembled structure of detect_silences on a valid non-empty call -/

theorem lexLe_fst {x y : Time × Time} (h : LexLe x y) : x.1 ≤ y.1 := by
  rcases h with h | ⟨h, _⟩
  · exact le_of_lt h
  · exact le_of_eq h

theorem speechIntervals_fst (df : List Row) :
    (speechIntervalsOf df).map Prod.fst = df.map Row.start_time := by
  simp [speechIntervalsOf, List.map_map]

theorem speechIntervals_snd (df : List Row) :
    (speechIntervalsOf df).map Prod.snd = df.map Row.end_time := by
  simp [speechIntervalsOf, List.map_map]

theorem beforeGap_cons (cs : Time) (c : Time × Time) (rest : List (Time × Time)) :
    beforeGap cs (c :: rest) =
      if cs < c.1 then [{ start_time := cs, end_time := c.1, duration := c.1 - cs }] else [] := by
  rcases c with ⟨a, b⟩
  rfl

theorem afterGap_eq (ce : Time) (c : Time × Time) (rest : List (Time × Time)) :
    afterGap ce (c :: rest) =
      if lastSnd c rest < ce then
        [{ start_time := lastSnd c rest, end_time := ce, duration := ce - lastSnd c rest }]
      else [] := by
  unfold afterGap lastSnd
  rw [List.getLast?_eq_getLast (c :: rest) (List.cons_ne_nil c rest)]

theorem sortByStart_ne_nil {rows : List Row} (h : rows ≠ []) : sortByStart rows ≠ [] := by
  intro h0
  apply h
  have hp := sortByStart_perm rows
  rw [h0] at hp
  exact (hp.nil_eq).symm

theorem create_timeline_within {data : List Segment} (hv : ∀ s ∈ data, s.stime ≤ s.etime) :
    ∀ r ∈ create_timeline data, r.start_time ≤ r.end_time := by
  intro r hr
  rcases List.mem_map.mp hr with ⟨s, hs, rfl⟩
  exact hv s hs

theorem map_start_create (data : List Segment) :
    (create_timeline data).map Row.start_time = data.map Segment.stime := by
  simp [create_timeline, List.map_map]

theorem map_end_create (data : List Segment) :
    (create_timeline data).map Row.end_time = data.map Segment.etime := by
  simp [create_timeline, List.map_map]

/-- On a non-empty DataFrame whose rows all have `start ≤ end`, the merged
intervals of `detect_silences` form a non-empty chain of disjoint intervals
starting at the call start and ending at the call end, every speech interval
lies inside one of them, and the silences are exactly the between-gaps. -/
theorem silences_structure (df : List Row) (hne : df ≠ [])
    (hv : ∀ r ∈ df, r.start_time ≤ r.end_time) :
    ∃ c rest, mergedOf df = c :: rest ∧
      c.1 = listMin (df.map Row.start_time) ∧
      lastSnd c rest = listMax (df.map Row.end_time) ∧
      List.Chain' (fun x y : Time × Time => x.2 < y.1) (c :: rest) ∧
      (∀ p ∈ c :: rest, p.1 ≤ p.2) ∧
      (∀ i ∈ speechIntervalsOf df, ∃ p ∈ c :: rest, p.1 ≤ i.1 ∧ i.2 ≤ p.2) ∧
      silencesCore df = betweenGaps (c :: rest) := by
  have hperm : (sortLex (speechIntervalsOf df)).Perm (speechIntervalsOf df) :=
    sortLex_perm _
  have hivne : sortLex (speechIntervalsOf df) ≠ [] := by
    intro h0
    rw [h0] at hperm
    apply hne
    have h1 : speechIntervalsOf df = [] := hperm.nil_eq.symm
    unfold speechIntervalsOf at h1
    exact List.map_eq_nil.mp h1
  obtain ⟨m0, mrest, hiv⟩ : ∃ m0 mrest, sortLex (speechIntervalsOf df) = m0 :: mrest := by
    cases hiv : sortLex (speechIntervalsOf df) with
    | nil => exact absurd hiv hivne
    | cons a b => exact ⟨a, b, rfl⟩
  have hsorted : List.Sorted LexLe (m0 :: mrest) := hiv ▸ sortLex_sorted (speechIntervalsOf df)
  have hfstpair : List.Pairwise (fun x y : Time × Time => x.1 ≤ y.1) (m0 :: mrest) :=
    hsorted.imp lexLe_fst
  have hwithin_iv : ∀ p ∈ (m0 :: mrest), p.1 ≤ p.2 := by
    intro p hp
    have hp' : p ∈ speechIntervalsOf df := hperm.mem_iff.mp (hiv ▸ hp)
    rcases List.mem_map.mp hp' with ⟨r, hr, rfl⟩
    exact hv r hr
  have hm0 : m0.1 ≤ m0.2 := hwithin_iv m0 (List.mem_cons_self _ _)
  have hmrest : ∀ p ∈ mrest, p.1 ≤ p.2 := fun p hp =>
    hwithin_iv p (List.mem_cons_of_mem _ hp)
  have hmerged : mergedOf df = mergeAux m0 mrest := by
    unfold mergedOf
    rw [hiv]
    rfl
  obtain ⟨c, rest, hc⟩ : ∃ c rest, mergeAux m0 mrest = c :: rest := by
    cases hc : mergeAux m0 mrest with
    | nil => exact absurd hc (mergeAux_ne_nil _ _)
    | cons a b => exact ⟨a, b, rfl⟩
  have hms : mergedOf df = c :: rest := by rw [hmerged, hc]
  -- the head of the merged list starts at the call start
  have hmapperm : ((m0 :: mrest).map Prod.fst).Perm (df.map Row.start_time) := by
    have h1 := hperm.map Prod.fst
    rw [speechIntervals_fst] at h1
    exact hiv ▸ h1
  have hlb : ∀ y ∈ (m0 :: mrest).map Prod.fst, m0.1 ≤ y := by
    intro y hy
    rcases List.mem_map.mp hy with ⟨p, hp, rfl⟩
    rcases List.mem_cons.mp hp with rfl | hp
    · exact le_refl _
    · exact lexLe_fst ((List.pairwise_cons.mp hsorted).1 p hp)
  have hmem0 : m0.1 ∈ (m0 :: mrest).map Prod.fst :=
    List.mem_map_of_mem _ (List.mem_cons_self _ _)
  have hminiv : listMin ((m0 :: mrest).map Prod.fst) = m0.1 := by
    refine le_antisymm (listMin_le hmem0) ?_
    exact hlb _ (listMin_mem (by simp))
  have hcall_start : c.1 = listMin (df.map Row.start_time) := by
    rw [(mergeAux_head hc).1, ← listMin_perm hmapperm, hminiv]
  -- the last merged interval ends at the call end
  have hsndperm : ((m0 :: mrest).map Prod.snd).Perm (df.map Row.end_time) := by
    have h1 := hperm.map Prod.snd
    rw [speechIntervals_snd] at h1
    exact hiv ▸ h1
  have hcall_end : lastSnd c rest = listMax (df.map Row.end_time) := by
    rw [mergeAux_lastSnd hfstpair hm0 hmrest hc, listMax_perm hsndperm]
  have hchain : List.Chain' (fun x y : Time × Time => x.2 < y.1) (c :: rest) :=
    hc ▸ mergeAux_chain m0 mrest
  have hwithin : ∀ p ∈ c :: rest, p.1 ≤ p.2 := fun p hp =>
    mergeAux_within hm0 hmrest p (hc ▸ hp)
  have hcover : ∀ i ∈ speechIntervalsOf df, ∃ p ∈ c :: rest, p.1 ≤ i.1 ∧ i.2 ≤ p.2 := by
    intro i hi
    have hi' : i ∈ (m0 :: mrest) := hiv ▸ hperm.mem_iff.mpr hi
    rcases mergeAux_covers hfstpair i hi' with ⟨q, hq, hq1, hq2⟩
    exact ⟨q, hc ▸ hq, hq1, hq2⟩
  refine ⟨c, rest, hms, hcall_start, hcall_end, hchain, hwithin, hcover, ?_⟩
  show silencesCore df = betweenGaps (c :: rest)
  simp only [silencesCore]
  rw [hms, beforeGap_cons, afterGap_eq]
  rw [if_neg (by rw [hcall_start]; exact lt_irrefl _)]
  rw [if_neg (by rw [hcall_end]; exact lt_irrefl _)]
  simp

/-- Claim C3: `detect_silences` merges the sorted speech intervals by
coalescing an interval into the running merged interval exactly when its
start is at most the running end (touching counts as contiguous), yielding
disjoint maximal merged intervals that absorb every speech interval, and
reports the gap before the first merged interval, each gap between
consecutive merged intervals, and the gap after the last one, in ascending
order of `start_time`. -/
theorem c3_detect_silences_merge_and_gaps (data : List Segment)
    (hv : ∀ s ∈ data, s.stime ≤ s.etime) (sl : List Silence)
    (h : (CallAnalyzer.init data).detect_silences = .ok sl) :
    sl = silencesSpecOf (sortByStart (create_timeline data)) ∧
      List.Chain' (fun x y : Time × Time => x.2 < y.1)
        (mergedOf (sortByStart (create_timeline data))) ∧
      (∀ i ∈ speechIntervalsOf (sortByStart (create_timeline data)),
        ∃ p ∈ mergedOf (sortByStart (create_timeline data)), p.1 ≤ i.1 ∧ i.2 ≤ p.2) ∧
      List.Pairwise (fun a b : Silence => a.start_time ≤ b.start_time) sl := by
  rcases detect_silences_ok.mp h with ⟨hne, rfl⟩
  rw [init_timeline] at hne
  simp only [init_timeline]
  have hne' : sortByStart (create_timeline data) ≠ [] := sortByStart_ne_nil hne
  have hv' : ∀ r ∈ sortByStart (create_timeline data), r.start_time ≤ r.end_time := by
    intro r hr
    exact create_timeline_within hv r ((sortByStart_perm _).mem_iff.mp hr)
  obtain ⟨c, rest, hms, hcs, hce, hchain, hwithin, hcover, hsil⟩ :=
    silences_structure _ hne' hv'
  refine ⟨?_, ?_, ?_, ?_⟩
  · show silencesCore _ = silencesSpecOf _
    simp only [silencesSpecOf, silencesCore, mergedOf]
    rw [mergeSpec_eq]
  · rw [hms]
    exact hchain
  · intro i hi
    rcases hcover i hi with ⟨p, hp, hp1, hp2⟩
    exact ⟨p, hms ▸ hp, hp1, hp2⟩
  · show List.Pairwise _ (silencesCore _)
    rw [hsil]
    exact betweenGaps_sorted hchain hwithin

/-- Witness for C3 on `exampleCallGap`. -/
theorem c3_witness :
    (∀ s ∈ exampleCallGap, s.stime ≤ s.etime) ∧
      (CallAnalyzer.init exampleCallGap).detect_silences =
        .ok [{ start_time := 3, end_time := 7, duration := 4 }] ∧
      (([{ start_time := 3, end_time := 7, duration := 4 }] : List Silence) =
          silencesSpecOf (sortByStart (create_timeline exampleCallGap)) ∧
        List.Chain' (fun x y : Time × Time => x.2 < y.1)
          (mergedOf (sortByStart (create_timeline exampleCallGap))) ∧
        (∀ i ∈ speechIntervalsOf (sortByStart (create_timeline exampleCallGap)),
          ∃ p ∈ mergedOf (sortByStart (create_timeline exampleCallGap)),
            p.1 ≤ i.1 ∧ i.2 ≤ p.2) ∧
        List.Pairwise (fun a b : Silence => a.start_time ≤ b.start_time)
          ([{ start_time := 3, end_time := 7, duration := 4 }] : List Silence)) := by
  have hv : ∀ s ∈ exampleCallGap, s.stime ≤ s.etime := by
    intro s hs
    rcases List.mem_cons.mp hs with rfl | hs
    · norm_num
    · rcases List.mem_cons.mp hs with rfl | hs
      · norm_num
      · cases hs
  have h : (CallAnalyzer.init exampleCallGap).detect_silences =
      .ok [{ start_time := 3, end_time := 7, duration := 4 }] := by
    norm_num [CallAnalyzer.detect_silences, CallAnalyzer.init, create_timeline, exampleCallGap,
      silencesCore, mergedOf, sortLex, List.insertionSort, List.orderedInsert, LexLe,
      speechIntervalsOf, sortByStart, RowLe, mergeIntervals, mergeAux, beforeGap, betweenGaps,
      afterGap, listMin_cons, listMax_cons, pyMax, pyMin, List.filterMap_cons]
  exact ⟨hv, h, c3_detect_silences_merge_and_gaps exampleCallGap hv _ h⟩

/-- Claim C4: on a non-empty call whose segments all have `end ≥ start`,
every time `t` with `call_start ≤ t < call_end` is covered by exactly one of
the merged speech intervals computed in `detect_silences` and the silences
it returns (intervals read as half-open `[start, end)`). -/
theorem c4_silence_speech_partition (data : List Segment)
    (hv : ∀ s ∈ data, s.stime ≤ s.etime) (sl : List Silence)
    (h : (CallAnalyzer.init data).detect_silences = .ok sl) (t : Time)
    (h1 : listMin (data.map Segment.stime) ≤ t)
    (h2 : t < listMax (data.map Segment.etime)) :
    (∃ p ∈ mergedOf (sortByStart (create_timeline data)), p.1 ≤ t ∧ t < p.2) ↔
      ¬ ∃ q ∈ sl, q.start_time ≤ t ∧ t < q.end_time := by
  rcases detect_silences_ok.mp h with ⟨hne, rfl⟩
  rw [init_timeline] at hne
  simp only [init_timeline]
  have hne' : sortByStart (create_timeline data) ≠ [] := sortByStart_ne_nil hne
  have hv' : ∀ r ∈ sortByStart (create_timeline data), r.start_time ≤ r.end_time := by
    intro r hr
    exact create_timeline_within hv r ((sortByStart_perm _).mem_iff.mp hr)
  obtain ⟨c, rest, hms, hcs, hce, hchain, hwithin, _, hsil⟩ :=
    silences_structure _ hne' hv'
  have hmin : listMin ((sortByStart (create_timeline data)).map Row.start_time) =
      listMin (data.map Segment.stime) := by
    rw [listMin_perm ((sortByStart_perm _).map Row.start_time), map_start_create]
  have hmax : listMax ((sortByStart (create_timeline data)).map Row.end_time) =
      listMax (data.map Segment.etime) := by
    rw [listMax_perm ((sortByStart_perm _).map Row.end_time), map_end_create]
  have hcs' : c.1 ≤ t := by
    rw [hcs, hmin]
    exact h1
  have hce' : t < lastSnd c rest := by
    rw [hce, hmax]
    exact h2
  show (∃ p ∈ mergedOf _, p.1 ≤ t ∧ t < p.2) ↔ ¬ ∃ q ∈ silencesCore _, _
  rw [hsil, hms]
  exact partitionAux rest c hchain hwithin t hcs' hce'

/-- Witness for C4 on `exampleCallGap` at `t = 5` (a silent moment). -/
theorem c4_witness :
    (∀ s ∈ exampleCallGap, s.stime ≤ s.etime) ∧
      (CallAnalyzer.init exampleCallGap).detect_silences =
        .ok [{ start_time := 3, end_time := 7, duration := 4 }] ∧
      listMin (exampleCallGap.map Segment.stime) ≤ (5 : Time) ∧
      (5 : Time) < listMax (exampleCallGap.map Segment.etime) ∧
      ((∃ p ∈ mergedOf (sortByStart (create_timeline exampleCallGap)),
          p.1 ≤ (5 : Time) ∧ (5 : Time) < p.2) ↔
        ¬ ∃ q ∈ ([{ start_time := 3, end_time := 7, duration := 4 }] : List Silence),
          q.start_time ≤ (5 : Time) ∧ (5 : Time) < q.end_time) := by
  have hv : ∀ s ∈ exampleCallGap, s.stime ≤ s.etime := by
    intro s hs
    rcases List.mem_cons.mp hs with rfl | hs
    · norm_num
    · rcases List.mem_cons.mp hs with rfl | hs
      · norm_num
      · cases hs
  have h : (CallAnalyzer.init exampleCallGap).detect_silences =
      .ok [{ start_time := 3, end_time := 7, duration := 4 }] := by
    norm_num [CallAnalyzer.detect_silences, CallAnalyzer.init, create_timeline, exampleCallGap,
      silencesCore, mergedOf, sortLex, List.insertionSort, List.orderedInsert, LexLe,
      speechIntervalsOf, sortByStart, RowLe, mergeIntervals, mergeAux, beforeGap, betweenGaps,
      afterGap, listMin_cons, listMax_cons, pyMax, pyMin, List.filterMap_cons]
  have h1 : listMin (exampleCallGap.map Segment.stime) ≤ (5 : Time) := by
    norm_num [exampleCallGap, listMin_cons, List.foldl_cons, List.foldl_nil, pyMin]
  have h2 : (5 : Time) < listMax (exampleCallGap.map Segment.etime) := by
    norm_num [exampleCallGap, listMax_cons, List.foldl_cons, List.foldl_nil, pyMax]
  exact ⟨hv, h, h1, h2, c4_silence_speech_partition exampleCallGap hv _ h 5 h1 h2⟩

/-! ### calculate_metrics -/

/-- Evaluation of `calculate_metrics` once both detectors have succeeded:
exactly the dict built at the end of the Python method. -/
theorem calculate_metrics_ok {an : CallAnalyzer} {ovs : List Overlap} {sis : List Silence}
    (ho : an.detect_overlaps = .ok ovs) (hs : an.detect_silences = .ok sis) :
    an.calculate_metrics = .ok
      { total_duration := listMax (an.timeline_data.map Row.end_time)
        total_overlap_time := (ovs.map Overlap.duration).sum
        total_silence_time := (sis.map Silence.duration).sum
        overlap_percentage :=
          (npDiv ((ovs.map Overlap.duration).sum)
            (listMax (an.timeline_data.map Row.end_time))).map (· * 100)
        silence_percentage :=
          (npDiv ((sis.map Silence.duration).sum)
            (listMax (an.timeline_data.map Row.end_time))).map (· * 100)
        agent_speaking_time :=
          (((an.timeline_data.filter fun r => r.speaker == "Agent").map Row.duration)).sum
        customer_speaking_time :=
          (((an.timeline_data.filter fun r => r.speaker == "Customer").map Row.duration)).sum
        agent_talk_percentage :=
          (npDiv (((an.timeline_data.filter fun r => r.speaker == "Agent").map Row.duration)).sum
            (listMax (an.timeline_data.map Row.end_time))).map (· * 100)
        customer_talk_percentage :=
          (npDiv (((an.timeline_data.filter fun r => r.speaker == "Customer").map Row.duration)).sum
            (listMax (an.timeline_data.map Row.end_time))).map (· * 100)
        overlaps := ovs
        silences := sis
        num_overlaps := ovs.length
        num_silences := sis.length } := by
  unfold CallAnalyzer.calculate_metrics
  rw [ho, hs]
  rfl

theorem speaking_time_eq (data : List Segment) (who : String) :
    (((create_timeline data).filter fun r => r.speaker == who).map Row.duration).sum =
      ((data.filter fun s => s.speaker == who).map fun s => s.etime - s.stime).sum := by
  simp only [create_timeline, List.filter_map, List.map_map]
  rfl

/-- Claim C5: for a non-empty call, `calculate_metrics` reports
`total_duration` as the maximum segment end time (not maximum end minus
minimum start), the overlap and silence totals as plain sums of the detected
durations, the per-speaker speaking times as plain per-speaker sums of
segment durations with no overlap adjustment, and each percentage as
`x / total_duration * 100` (whenever that division is defined). -/
theorem c5_calculate_metrics_formulas (data : List Segment) (hne : data ≠ []) :
    ∃ m : Metrics, (CallAnalyzer.init data).calculate_metrics = .ok m ∧
      m.total_duration = listMax (data.map Segment.etime) ∧
      m.total_overlap_time = (m.overlaps.map Overlap.duration).sum ∧
      m.total_silence_time = (m.silences.map Silence.duration).sum ∧
      m.agent_speaking_time =
        ((data.filter fun s => s.speaker == "Agent").map fun s => s.etime - s.stime).sum ∧
      m.customer_speaking_time =
        ((data.filter fun s => s.speaker == "Customer").map fun s => s.etime - s.stime).sum ∧
      (m.total_duration ≠ 0 →
        m.overlap_percentage = some (m.total_overlap_time / m.total_duration * 100) ∧
        m.silence_percentage = some (m.total_silence_time / m.total_duration * 100) ∧
        m.agent_talk_percentage = some (m.agent_speaking_time / m.total_duration * 100) ∧
        m.customer_talk_percentage =
          some (m.customer_speaking_time / m.total_duration * 100)) := by
  have hne' : (CallAnalyzer.init data).timeline_data ≠ [] := by
    rw [init_timeline]
    simp [create_timeline, hne]
  have ho : (CallAnalyzer.init data).detect_overlaps =
      .ok (scanPairs (sortByStart (CallAnalyzer.init data).timeline_data)) :=
    detect_overlaps_ok.mpr ⟨hne', rfl⟩
  have hs : (CallAnalyzer.init data).detect_silences =
      .ok (silencesCore (sortByStart (CallAnalyzer.init data).timeline_data)) :=
    detect_silences_ok.mpr ⟨hne', rfl⟩
  refine ⟨_, calculate_metrics_ok ho hs, ?_, rfl, rfl, ?_, ?_, ?_⟩
  · show listMax ((CallAnalyzer.init data).timeline_data.map Row.end_time) = _
    rw [init_timeline, map_end_create]
  · show (((create_timeline data).filter fun r => r.speaker == "Agent").map Row.duration).sum = _
    exact speaking_time_eq data "Agent"
  · show (((create_timeline data).filter fun r => r.speaker == "Customer").map Row.duration).sum = _
    exact speaking_time_eq data "Customer"
  · intro hd
    refine ⟨?_, ?_, ?_, ?_⟩ <;>
      · show (npDiv _ _).map _ = _
        rw [npDiv, if_neg hd]
        rfl

/-- Witness for C5 on `exampleCall`. -/
theorem c5_witness :
    exampleCall ≠ [] ∧
      ∃ m : Metrics, (CallAnalyzer.init exampleCall).calculate_metrics = .ok m ∧
        m.total_duration = listMax (exampleCall.map Segment.etime) ∧
        m.total_overlap_time = (m.overlaps.map Overlap.duration).sum ∧
        m.total_silence_time = (m.silences.map Silence.duration).sum ∧
        m.agent_speaking_time =
          ((exampleCall.filter fun s => s.speaker == "Agent").map fun s => s.etime - s.stime).sum ∧
        m.customer_speaking_time =
          ((exampleCall.filter fun s => s.speaker == "Customer").map
            fun s => s.etime - s.stime).sum ∧
        (m.total_duration ≠ 0 →
          m.overlap_percentage = some (m.total_overlap_time / m.total_duration * 100) ∧
          m.silence_percentage = some (m.total_silence_time / m.total_duration * 100) ∧
          m.agent_talk_percentage = some (m.agent_speaking_time / m.total_duration * 100) ∧
          m.customer_talk_percentage =
            some (m.customer_speaking_time / m.total_duration * 100)) := by
  have hne : exampleCall ≠ [] := by simp [exampleCall]
  exact ⟨hne, c5_calculate_metrics_formulas exampleCall hne⟩

/-- The degenerate one-segment call `[(Agent, 0, 0)]` whose total duration
is zero. -/
def zeroCall : List Segment := [{ speaker := "Agent", text := "", stime := 0, etime := 0 }]

/-- Claim C6 (documenting the code's actual behaviour): on `zeroCall` the
metrics are returned without any error, and all four percentage fields are
numpy's `0 / 0` result `nan` (modelled `none`) — neither a raised
`DivisionUndefinedError` (which the code does not define) nor the value 0. -/
theorem c6_zero_duration_metrics :
    ∃ m : Metrics, (CallAnalyzer.init zeroCall).calculate_metrics = .ok m ∧
      m.total_duration = 0 ∧
      m.overlap_percentage = none ∧
      m.silence_percentage = none ∧
      m.agent_talk_percentage = none ∧
      m.customer_talk_percentage = none ∧
      m.overlap_percentage ≠ some 0 ∧
      m.agent_talk_percentage ≠ some 0 := by
  have hne' : (CallAnalyzer.init zeroCall).timeline_data ≠ [] := by
    rw [init_timeline]
    simp [create_timeline, zeroCall]
  have ho : (CallAnalyzer.init zeroCall).detect_overlaps =
      .ok (scanPairs (sortByStart (CallAnalyzer.init zeroCall).timeline_data)) :=
    detect_overlaps_ok.mpr ⟨hne', rfl⟩
  have hs : (CallAnalyzer.init zeroCall).detect_silences =
      .ok (silencesCore (sortByStart (CallAnalyzer.init zeroCall).timeline_data)) :=
    detect_silences_ok.mpr ⟨hne', rfl⟩
  have hd : listMax ((CallAnalyzer.init zeroCall).timeline_data.map Row.end_time) = 0 := by
    norm_num [init_timeline, create_timeline, zeroCall, listMax_cons]
  refine ⟨_, calculate_metrics_ok ho hs, hd, ?_, ?_, ?_, ?_, ?_, ?_⟩ <;>
    simp [npDiv, hd]

/-! ### Construction and the empty call -/

/-- Counterexample to claim C1: `__init__` performs no validation at all.
Constructing the analyzer on the empty call, and on a call whose only
segment has `end < start`, both succeed and return an analyzer object; no
`InvalidInputError` exists anywhere in the code. -/
theorem c1_counterexample :
    CallAnalyzer.init [] = { conversation_data := [], timeline_data := [] } ∧
      CallAnalyzer.init [{ speaker := "Agent", text := "", stime := 5, etime := 1 }] =
        { conversation_data := [{ speaker := "Agent", text := "", stime := 5, etime := 1 }],
          timeline_data :=
            [{ speaker := "Agent", text := "", start_time := 5, end_time := 1,
               duration := -4 }] } := by
  constructor
  · rfl
  · simp only [CallAnalyzer.init, create_timeline, List.map_cons, List.map_nil,
      CallAnalyzer.mk.injEq, List.cons.injEq, Row.mk.injEq]
    norm_num

/-- Claim C1 as amended: construction never raises.  For every input —
including the empty sequence and segments with `end < start` — `__init__`
succeeds, storing the input and one timeline row per segment. -/
theorem c1_construction_never_fails (data : List Segment) :
    (CallAnalyzer.init data).conversation_data = data ∧
      (CallAnalyzer.init data).timeline_data = data.map fun s =>
        { speaker := s.speaker, text := s.text, start_time := s.stime, end_time := s.etime,
          duration := s.etime - s.stime } :=
  ⟨rfl, rfl⟩

/-- Counterexample to claim C10: on the analyzer built from the empty
segment sequence, neither method returns the empty list. -/
theorem c10_counterexample :
    (CallAnalyzer.init []).detect_overlaps ≠ .ok [] ∧
      (CallAnalyzer.init []).detect_silences ≠ .ok [] := by
  constructor <;>
    simp [CallAnalyzer.detect_overlaps, CallAnalyzer.detect_silences, CallAnalyzer.init,
      create_timeline]

/-- Claim C10 as amended: on the empty call, `detect_overlaps` and
`detect_silences` both raise the pandas `KeyError` for the missing
`start_time` column of the empty DataFrame, instead of returning `[]`. -/
theorem c10_empty_call_raises :
    (CallAnalyzer.init []).detect_overlaps = .error (.keyError "start_time") ∧
      (CallAnalyzer.init []).detect_silences = .error (.keyError "start_time") :=
  ⟨rfl, rfl⟩
